import Mathlib

/-
Verification development for the HlaTools alignment-evidence resolution core.

Shallow embedding of the four source modules:
  src/pbhla/dictionary.py            (standalone locus resolvers)
  src/pbhla/reference/ReferenceDict.py (format-dispatching reference dictionary)
  src/pbhla/sequences/orientation.py (orientation corrector)
  src/pbhla/io/AmpAnalysisIO.py      (amplicon-analysis records)

Modelling conventions:
  - Python strings are lists of characters (Str).
  - Python dicts are insertion-ordered association lists; dict assignment is
    aset (replace the existing binding in place, else append).
  - Fallible code returns Except PyErr; PyErr names the Python exception
    class raised at each site.
  - Machine-external collaborators that are not part of the shown sources
    (the query-name normalizer, the external aligner, the file system) are
    passed in as explicit parameters, or are modelled from the spec where a
    claim depends on their behaviour; such definitions carry a doc comment
    starting with "Modelled from the spec:".
-/

abbrev Str := List Char

/-- Python exception classes raised by the embedded code. -/
inductive PyErr where
  | keyError (k : Str)
  | lookupError (k : Str)
  | indexError
  | valueError
  | typeError
  | ioError
  deriving DecidableEq

/-- Lookup in an association list: first binding wins (keys are kept unique). -/
def alookup {β : Type} : List (Str × β) → Str → Option β
  | [], _ => none
  | (k, v) :: rest, q => if k = q then some v else alookup rest q

/-- Python dict assignment d[k] = v: replace the existing binding for k in
place, otherwise append a fresh binding. -/
def aset {β : Type} : List (Str × β) → Str → β → List (Str × β)
  | [], k, v => [(k, v)]
  | (k', v') :: rest, k, v =>
    if k' = k then (k, v) :: rest else (k', v') :: aset rest k v

theorem alookup_aset {β : Type} (m : List (Str × β)) (k q : Str) (v : β) :
    alookup (aset m k v) q = if k = q then some v else alookup m q := by
  induction m with
  | nil => simp [aset, alookup]
  | cons p rest ih =>
    rcases p with ⟨k', v'⟩
    by_cases h : k' = k
    · subst h
      by_cases h2 : k' = q <;> simp [aset, alookup, h2]
    · by_cases h2 : k' = q
      · subst h2
        have hne : ¬ k = k' := fun he => h he.symm
        simp [aset, alookup, h, hne]
      · simp [aset, alookup, h, h2, ih]

theorem alookup_eq_none_iff {β : Type} (m : List (Str × β)) (k : Str) :
    alookup m k = none ↔ k ∉ m.map Prod.fst := by
  induction m with
  | nil => simp [alookup]
  | cons p rest ih =>
    rcases p with ⟨k', v'⟩
    simp only [alookup, List.map_cons, List.mem_cons, not_or]
    by_cases h : k' = k
    · subst h
      constructor
      · intro hc; exact absurd hc (by simp)
      · intro hc; exact absurd rfl hc.1
    · rw [if_neg h]
      constructor
      · intro hc; exact ⟨fun he => h he.symm, ih.mp hc⟩
      · intro hc; exact ih.mpr hc.2

theorem aset_eq_append_of_none {β : Type} (m : List (Str × β)) (k : Str) (v : β)
    (h : alookup m k = none) : aset m k v = m ++ [(k, v)] := by
  induction m with
  | nil => simp [aset]
  | cons p rest ih =>
    rcases p with ⟨k', v'⟩
    simp only [alookup] at h
    by_cases h2 : k' = k
    · simp [h2] at h
    · simp only [aset, h2, if_false, List.cons_append, List.cons.injEq, true_and]
      exact ih (by simpa [h2] using h)

/-- Python str.split(sep) for a single-character separator: always returns a
non-empty list and keeps empty fields. -/
def splitOnChar (sep : Char) : Str → List Str
  | [] => [[]]
  | c :: cs =>
    if c = sep then [] :: splitOnChar sep cs
    else
      match splitOnChar sep cs with
      | [] => [[c]]
      | w :: ws => (c :: w) :: ws

/-- Python whitespace test used by str.strip() and str.split(). -/
def pyIsSpace (c : Char) : Bool := c = ' ' || c = '\t' || c = '\n' || c = '\r'

/-- Python str.strip(): drop leading and trailing whitespace. -/
def pyStrip (s : Str) : Str :=
  ((s.dropWhile pyIsSpace).reverse.dropWhile pyIsSpace).reverse

/-- Worker for Python str.split() with no separator: scan the input keeping
the current word (reversed) in the accumulator, emitting a word at every
whitespace boundary and discarding empty fields. -/
def splitWsAux : Str → Str → List Str
  | [], acc => if acc = [] then [] else [acc.reverse]
  | c :: cs, acc =>
    if pyIsSpace c then
      if acc = [] then splitWsAux cs [] else acc.reverse :: splitWsAux cs []
    else splitWsAux cs (c :: acc)

/-- Python str.split() with no separator: split on runs of whitespace,
discarding empty fields. -/
def splitWs (s : Str) : List Str := splitWsAux s []

/-- Python name.split()[0], which raises IndexError when there is no word. -/
def firstWord? (s : Str) : Option Str := (splitWs s).head?

/-- Test for the double-underscore marker, mirroring re.search applied to the
pattern of two underscores in ReferenceDict.parse_reference_fofn. -/
def containsDU : Str → Bool
  | '_' :: '_' :: _ => true
  | _ :: rest => containsDU rest
  | [] => false

/-- Python os.path.basename: the component after the final slash. -/
def pyBasename (p : Str) : Str := (splitOnChar '/' p).getLastD []

/- ----------------------------------------------------------------- -/
/- Embedding of src/pbhla/io/AmpAnalysisIO.py                        -/
/- ----------------------------------------------------------------- -/

deriving instance DecidableEq for Except

/-- A consensus-sequence record (AmpliconAnalysisRecord fields). -/
structure AmpliconAnalysisRecord where
  name : Str
  sequence : Str
  quality : Option Str
  deriving DecidableEq

/-- Worker for Python str.split applied with the separator "NumReads": scan
left to right; where the eight separator characters occur, cut and continue
after them, otherwise consume one character into the current field. -/
def splitNumReadsAux : Str → Str → List Str
  | 'N' :: 'u' :: 'm' :: 'R' :: 'e' :: 'a' :: 'd' :: 's' :: rest, acc =>
    acc.reverse :: splitNumReadsAux rest []
  | c :: rest, acc => splitNumReadsAux rest (c :: acc)
  | [], acc => [acc.reverse]

/-- Python name.split applied with separator "NumReads". -/
def splitNumReads (s : Str) : List Str := splitNumReadsAux s []

/-- Python str.isdigit: non-empty and all digits. -/
def pyIsDigit (s : Str) : Bool := !s.isEmpty && s.all Char.isDigit

/-- The name half of the constructor validation: name.strip().split with the
separator "NumReads" must give exactly two parts whose second is numeric. -/
def ampNameOk (name : Str) : Bool :=
  match splitNumReads (pyStrip name) with
  | [_, b] => pyIsDigit b
  | _ => false

/-- Constructor validation of AmpliconAnalysisRecord.__init__: the NumReads
name check, plus equal sequence/quality lengths when a quality is present. -/
def ampRecordOk (name sequence : Str) (quality : Option Str) : Bool :=
  ampNameOk name &&
    (match quality with
     | some q => decide (sequence.length = q.length)
     | none => true)

/-- AmpliconAnalysisRecord construction; assertion failures surface
as ValueError. -/
def mkAmpliconAnalysisRecord (name sequence : Str) (quality : Option Str) :
    Except PyErr AmpliconAnalysisRecord :=
  if ampRecordOk name sequence quality then .ok ⟨name, sequence, quality⟩
  else .error .valueError

/-- The is_fasta property; note the source tests Python truthiness of the
quality, so a present-but-empty quality also counts as fasta. -/
def ampIsFasta (r : AmpliconAnalysisRecord) : Bool :=
  match r.quality with
  | none => true
  | some q => q.isEmpty

/-- The quality property, which raises ValueError on falsy quality data. -/
def ampQuality (r : AmpliconAnalysisRecord) : Except PyErr Str :=
  match r.quality with
  | some q => if q.isEmpty then .error .valueError else .ok q
  | none => .error .valueError

/-- Python slice object with optional start, stop, and step. -/
structure PySlice where
  start : Option Int
  stop : Option Int
  step : Option Int

/-- Python slice.indices(length): normalize the slice bounds against a
sequence length, exactly as CPython does; a zero step is a ValueError. -/
def pySliceIndices (n : Nat) (sl : PySlice) : Except PyErr (Int × Int × Int) :=
  let len : Int := n
  let step := sl.step.getD 1
  if step = 0 then .error .valueError
  else
    let lower : Int := if step < 0 then -1 else 0
    let upper : Int := if step < 0 then len - 1 else len
    let start := match sl.start with
      | none => if step < 0 then upper else lower
      | some s => if s < 0 then max (s + len) lower else min s upper
    let stop := match sl.stop with
      | none => if step < 0 then lower else upper
      | some s => if s < 0 then max (s + len) lower else min s upper
    .ok (start, stop, step)

/-- Python sequence slicing s[a:b] for arbitrary integer bounds
(negative indices count from the end; out-of-range bounds clamp). -/
def pySliceI (s : Str) (a b : Int) : Str :=
  let n : Int := s.length
  let a2 := (if a < 0 then max (a + n) 0 else min a n).toNat
  let b2 := (if b < 0 then max (b + n) 0 else min b n).toNat
  (s.take b2).drop a2

theorem pySliceI_length_eq {s t : Str} (h : s.length = t.length) (a b : Int) :
    (pySliceI s a b).length = (pySliceI t a b).length := by
  simp [pySliceI, h]

/-- The _slice method: rebuild a record over the sliced range, carrying the
quality (fetched through the fallible quality property) in the fastq case. -/
def ampSliceAt (r : AmpliconAnalysisRecord) (a b : Int) :
    Except PyErr AmpliconAnalysisRecord :=
  if ampIsFasta r then
    mkAmpliconAnalysisRecord r.name (pySliceI r.sequence a b) none
  else
    match ampQuality r with
    | .error e => .error e
    | .ok q =>
      mkAmpliconAnalysisRecord r.name (pySliceI r.sequence a b)
        (some (pySliceI q a b))

/-- The slice branch of AmpliconAnalysisRecord.__getitem__: normalize the
bounds with slice.indices, reject start >= stop with ValueError, otherwise
delegate to _slice. -/
def ampGetItemSlice (r : AmpliconAnalysisRecord) (sl : PySlice) :
    Except PyErr AmpliconAnalysisRecord :=
  match pySliceIndices r.sequence.length sl with
  | .error e => .error e
  | .ok (start, stop, _) =>
    if start ≥ stop then .error .valueError
    else ampSliceAt r start stop

/-- The generator expression inside wrap: successive fixed-width slices
s[start:start+columns] for start stepping by columns from zero. -/
def wrapChunks (s : Str) (columns : Nat) : List Str :=
  if h : columns = 0 ∨ s = [] then []
  else s.take columns :: wrapChunks (s.drop columns) columns
termination_by s.length
decreasing_by
  simp only [not_or] at h
  have : 0 < s.length := List.length_pos.mpr h.2
  simp [List.length_drop]
  omega

/-- The wrap function: the chunks joined with newlines. -/
def wrap (s : Str) (columns : Nat) : Str :=
  List.intercalate ['\n'] (wrapChunks s columns)

def ampColumns : Nat := 60

/-- The as_fasta property: a header line then the wrapped sequence. -/
def ampAsFasta (r : AmpliconAnalysisRecord) : Str :=
  '>' :: r.name ++ '\n' :: wrap r.sequence ampColumns

theorem wrapChunks_flatten (s : Str) (c : Nat) (hc : 0 < c) :
    (wrapChunks s c).flatten = s := by
  induction s, c using wrapChunks.induct with
  | case1 s c h =>
    rcases h with h | h
    · omega
    · simp [wrapChunks, h]
  | case2 s c h ih =>
    rw [wrapChunks]
    simp only [h, dite_false]
    simp only [List.flatten_cons]
    rw [ih hc, List.take_append_drop]

theorem wrapChunks_dropLast_len (s : Str) (c : Nat) (hc : 0 < c) :
    ∀ l ∈ (wrapChunks s c).dropLast, l.length = c := by
  induction s, c using wrapChunks.induct with
  | case1 s c h => simp [wrapChunks, h]
  | case2 s c h ih =>
    rw [wrapChunks]
    simp only [h, dite_false]
    intro l hl
    rcases hrest : wrapChunks (s.drop c) c with _ | ⟨w, ws⟩
    · simp [hrest] at hl
    · rw [hrest, List.dropLast_cons_of_ne_nil (by simp)] at hl
      rcases List.mem_cons.mp hl with h1 | h2
      · subst h1
        have hne : s.drop c ≠ [] := by
          intro hd; rw [hd] at hrest; simp [wrapChunks] at hrest
        have hlt : c < s.length := by
          by_contra hle
          push_neg at hle
          exact hne (List.drop_eq_nil_of_le hle)
        simp [List.length_take]
        omega
      · exact ih hc l (by rw [hrest]; exact h2)

/-- Claim C9: for every string s and positive column width c, the lines
produced by wrap (the fixed-width chunks that wrap joins with newlines)
concatenate back to exactly s, every line except possibly the last has
length c, and consequently the as_fasta serialization of an
AmpliconAnalysisRecord (header line plus the 60-column wrapped sequence)
preserves the record's sequence content exactly. -/
theorem c9_wrap_roundtrip (s : Str) (c : Nat) (hc : 0 < c) :
    (wrapChunks s c).flatten = s ∧
    (∀ l ∈ (wrapChunks s c).dropLast, l.length = c) ∧
    (∀ r : AmpliconAnalysisRecord,
      ampAsFasta r =
        '>' :: r.name ++ '\n' :: List.intercalate ['\n'] (wrapChunks r.sequence ampColumns) ∧
      (wrapChunks r.sequence ampColumns).flatten = r.sequence) := by
  refine ⟨wrapChunks_flatten s c hc, wrapChunks_dropLast_len s c hc, ?_⟩
  intro r
  exact ⟨rfl, wrapChunks_flatten r.sequence ampColumns (by decide)⟩

theorem c9_wrap_roundtrip_witness :
    (0 < 2) ∧
    (wrapChunks "ACGTA".data 2).flatten = "ACGTA".data ∧
    (∀ l ∈ (wrapChunks "ACGTA".data 2).dropLast, l.length = 2) :=
  ⟨by decide, (c9_wrap_roundtrip "ACGTA".data 2 (by decide)).1,
    (c9_wrap_roundtrip "ACGTA".data 2 (by decide)).2.1⟩

theorem ampRecordOk_nameOk {n s : Str} {q : Option Str}
    (h : ampRecordOk n s q = true) : ampNameOk n = true :=
  ((Bool.and_eq_true _ _).mp h).1

/-- Claim C10: slicing an AmpliconAnalysisRecord through the slice branch of
its item accessor raises ValueError whenever the indices-normalized bounds
satisfy start >= stop (so every empty slice, such as the 0:0 slice, is
rejected), and every valid slice (start < stop) yields a new record with the
same name whose sequence, and quality when present, are sliced over the
identical range. -/
theorem c10_slice_behaviour (r : AmpliconAnalysisRecord) (sl : PySlice)
    (start stop step : Int)
    (hok : ampRecordOk r.name r.sequence r.quality = true)
    (hidx : pySliceIndices r.sequence.length sl = .ok (start, stop, step)) :
    (start ≥ stop → ampGetItemSlice r sl = .error .valueError) ∧
    (start < stop → ampGetItemSlice r sl =
      .ok ⟨r.name, pySliceI r.sequence start stop,
        if ampIsFasta r then none
        else r.quality.map (fun q => pySliceI q start stop)⟩) := by
  constructor
  · intro hge
    simp only [ampGetItemSlice, hidx]
    rw [if_pos hge]
  · intro hlt
    simp only [ampGetItemSlice, hidx]
    rw [if_neg (not_le.mpr hlt)]
    by_cases hf : ampIsFasta r = true
    · have hname := ampRecordOk_nameOk hok
      simp only [ampSliceAt, hf, if_true, mkAmpliconAnalysisRecord,
        ampRecordOk, hname, Bool.true_and, if_pos]
    · have hq : ∃ q, r.quality = some q ∧ q.isEmpty = false := by
        rcases hospital : r.quality with _ | q
        · exact absurd (by simp [ampIsFasta, hospital]) hf
        · refine ⟨q, rfl, ?_⟩
          by_contra he
          simp only [Bool.not_eq_false] at he
          exact hf (by simp [ampIsFasta, hospital, he])
      rcases hq with ⟨q, hqe, hqne⟩
      have hlen : r.sequence.length = q.length := by
        have := ((Bool.and_eq_true _ _).mp hok).2
        rw [hqe] at this
        exact of_decide_eq_true this
      have hname := ampRecordOk_nameOk hok
      have hslen : (pySliceI r.sequence start stop).length =
          (pySliceI q start stop).length := pySliceI_length_eq hlen start stop
      simp only [ampSliceAt, hf, if_false, ampQuality, hqe, hqne,
        Bool.false_eq_true, if_false, mkAmpliconAnalysisRecord, ampRecordOk,
        hname, Bool.true_and, hslen, decide_eq_true_eq]
      simp only [Bool.not_eq_true] at hf
      simp [hf, hqe, hslen]

theorem c10_slice_behaviour_witness :
    (ampRecordOk "fooNumReads42".data "ACGT".data none = true) ∧
    (ampGetItemSlice ⟨"fooNumReads42".data, "ACGT".data, none⟩
        ⟨some 0, some 0, none⟩ = .error .valueError) ∧
    (ampGetItemSlice ⟨"fooNumReads42".data, "ACGT".data, none⟩
        ⟨some 1, some 3, none⟩ =
      .ok ⟨"fooNumReads42".data, "CG".data, none⟩) := by
  refine ⟨by decide, ?_, ?_⟩
  · have h := (c10_slice_behaviour ⟨"fooNumReads42".data, "ACGT".data, none⟩
      ⟨some 0, some 0, none⟩ 0 0 1 (by decide) (by decide)).1 (by decide)
    exact h
  · have h := (c10_slice_behaviour ⟨"fooNumReads42".data, "ACGT".data, none⟩
      ⟨some 1, some 3, none⟩ 1 3 1 (by decide) (by decide)).2 (by decide)
    rw [h]
    have : pySliceI "ACGT".data 1 3 = "CG".data := by decide
    rw [this]
    decide

/- ----------------------------------------------------------------- -/
/- Embedding of src/pbhla/dictionary.py                              -/
/- ----------------------------------------------------------------- -/

/-- An alignment summary record in the single-best-hit (m1) layout: only the
query and target names are consumed by the resolvers. -/
structure BlasrM1Record where
  qname : Str
  tname : Str
  deriving DecidableEq

/-- An alignment summary record in the richer (m5) layout, carrying the
mismatch, insertion and deletion counts (the reader yields them as numeric
strings; the code converts them with int, modelled here as Nat fields). -/
structure BlasrM5Record where
  qname : Str
  tname : Str
  nmis : Nat
  nins : Nat
  ndel : Nat
  deriving DecidableEq

/-- A SAM alignment record: only the query and reference names are consumed. -/
structure SamRecord where
  qname : Str
  rname : Str
  deriving DecidableEq

/-- A fasta sequence record as yielded by the sequence reader. -/
structure FastaRecord where
  name : Str
  sequence : Str
  deriving DecidableEq

/-- A locus assignment map (the dict built by every resolver). -/
abbrev RDict := List (Str × Str)

/-- Worker for create_amp_assem_reference: per record, normalize the query
name, parse the locus token as the second underscore-delimited field of the
normalized name (IndexError when absent), raise KeyError on a duplicate
key, then assign through the optional reference (Python truthiness: an
empty reference dict behaves like no reference). -/
def createAmpAssemAux (normalize : Str → Str) (reference : RDict) :
    List BlasrM1Record → RDict → Except PyErr RDict
  | [], results => .ok results
  | r :: rest, results =>
    let qname := normalize r.qname
    match (splitOnChar '_' qname).get? 1 with
    | none => .error .indexError
    | some locus =>
      if (alookup results qname).isSome then .error (.keyError qname)
      else if reference = [] then
        createAmpAssemAux normalize reference rest (aset results qname locus)
      else
        match alookup reference locus with
        | some v => createAmpAssemAux normalize reference rest (aset results qname v)
        | none => .error (.lookupError locus)

/-- The create_amp_assem_reference resolver over the stream of m1 records. -/
def createAmpAssemReference (normalize : Str → Str) (reference : RDict)
    (records : List BlasrM1Record) : Except PyErr RDict :=
  createAmpAssemAux normalize reference records []

/-- Worker for create_m1_reference: normalize both names, raise KeyError on
a duplicate query key, then assign the (reference-translated) target. -/
def createM1Aux (normalize : Str → Str) (reference : RDict) :
    List BlasrM1Record → RDict → Except PyErr RDict
  | [], results => .ok results
  | r :: rest, results =>
    let qname := normalize r.qname
    let tname := normalize r.tname
    if (alookup results qname).isSome then .error (.keyError qname)
    else if reference = [] then
      createM1Aux normalize reference rest (aset results qname tname)
    else
      match alookup reference tname with
      | some v => createM1Aux normalize reference rest (aset results qname v)
      | none => .error (.lookupError tname)

/-- The create_m1_reference resolver over the stream of m1 records. -/
def createM1Reference (normalize : Str → Str) (reference : RDict)
    (records : List BlasrM1Record) : Except PyErr RDict :=
  createM1Aux normalize reference records []

/-- Worker for create_m5_reference: keep, per normalized query name, the
target of the record with the fewest combined differences seen so far;
replace only on a strictly smaller difference count; no duplicate error. -/
def createM5Aux (normalize : Str → Str) :
    List BlasrM5Record → RDict → List (Str × Nat) → RDict
  | [], results, _ => results
  | r :: rest, results, diffs =>
    let qname := normalize r.qname
    let tname := normalize r.tname
    let diffCount := r.nmis + r.nins + r.ndel
    match alookup diffs qname with
    | none =>
      createM5Aux normalize rest (aset results qname tname) (aset diffs qname diffCount)
    | some d =>
      if d > diffCount then
        createM5Aux normalize rest (aset results qname tname) (aset diffs qname diffCount)
      else
        createM5Aux normalize rest results diffs

/-- The create_m5_reference resolver over the stream of m5 records. -/
def createM5Reference (normalize : Str → Str) (records : List BlasrM5Record) :
    RDict :=
  createM5Aux normalize records [] []

/-- Worker for create_sam_reference: the reference name is normalized but
the query name is used raw as the key; KeyError on a duplicate key. -/
def createSamAux (normalize : Str → Str) (reference : RDict) :
    List SamRecord → RDict → Except PyErr RDict
  | [], results => .ok results
  | r :: rest, results =>
    let name := normalize r.rname
    if (alookup results r.qname).isSome then .error (.keyError r.qname)
    else if reference = [] then
      createSamAux normalize reference rest (aset results r.qname name)
    else
      match alookup reference name with
      | some v => createSamAux normalize reference rest (aset results r.qname v)
      | none => .error (.lookupError name)

/-- The create_sam_reference resolver over the stream of SAM records. -/
def createSamReference (normalize : Str → Str) (reference : RDict)
    (records : List SamRecord) : Except PyErr RDict :=
  createSamAux normalize reference records []

/-- The contig name derived from a phased fasta path: the first
dot-delimited field of the basename with the cns suffix appended. -/
def phasedContigName (path : Str) : Str :=
  (splitOnChar '.' (pyBasename path)).headD [] ++ "_cns".data

/-- Worker over the records of one phased fasta file: assign the contig name
to the first word of every record name, overwriting without any duplicate
check (plain dict assignment in the source). -/
def phasedFileAux (contig : Str) : List FastaRecord → RDict → Except PyErr RDict
  | [], results => .ok results
  | r :: rest, results =>
    match firstWord? r.name with
    | none => .error .indexError
    | some name => phasedFileAux contig rest (aset results name contig)

/-- Worker for create_phased_reference over the manifest: each line carries
a fasta path whose records are all assigned that file's contig name. -/
def createPhasedAux : List (Str × List FastaRecord) → RDict → Except PyErr RDict
  | [], results => .ok results
  | (path, recs) :: rest, results =>
    match phasedFileAux (phasedContigName path) recs results with
    | .error e => .error e
    | .ok results2 => createPhasedAux rest results2

/-- The create_phased_reference resolver: the manifest is the list of
(fasta path, records of that file) pairs. -/
def createPhasedReference (fofn : List (Str × List FastaRecord)) :
    Except PyErr RDict :=
  createPhasedAux fofn []

/- ----------------------------------------------------------------- -/
/- Embedding of src/pbhla/reference/ReferenceDict.py                 -/
/- ----------------------------------------------------------------- -/

/-- ReferenceDict item assignment: KeyError on an existing key, otherwise
store the binding. -/
def rdInsert (d : RDict) (k v : Str) : Except PyErr RDict :=
  if (alookup d k).isSome then .error (.keyError k) else .ok (aset d k v)

/-- Worker for parse_locus_key: every line is stripped and split on
whitespace into exactly a name and a locus (ValueError otherwise,
mirroring the two-target tuple unpacking), inserted with the duplicate
check of the item assignment. -/
def parseLocusKeyAux : List Str → RDict → Except PyErr RDict
  | [], d => .ok d
  | line :: rest, d =>
    match splitWs (pyStrip line) with
    | [seqName, locus] =>
      match rdInsert d seqName locus with
      | .error e => .error e
      | .ok d2 => parseLocusKeyAux rest d2
    | _ => .error .valueError

/-- The parse_locus_key pass over the lines of a key file. -/
def parseLocusKey (lines : List Str) : Except PyErr RDict :=
  parseLocusKeyAux lines []

/-- Worker over the records of one fofn-referenced fasta file: key by the
first word of the record name, collapsed to its first underscore-delimited
field when the double-underscore marker is absent; duplicate-checked. -/
def fofnFastaAux (locus : Str) : List FastaRecord → RDict → Except PyErr RDict
  | [], d => .ok d
  | r :: rest, d =>
    match firstWord? r.name with
    | none => .error .indexError
    | some name0 =>
      let name := if containsDU name0 then name0 else (splitOnChar '_' name0).headD []
      match rdInsert d name locus with
      | .error e => .error e
      | .ok d2 => fofnFastaAux locus rest d2

/-- Worker for parse_reference_fofn: each manifest line is a fasta path and
a locus label; the records of that fasta file all receive the label. The
file system is passed as an association of path to records. -/
def parseReferenceFofnAux (fastaFS : List (Str × List FastaRecord)) :
    List Str → RDict → Except PyErr RDict
  | [], d => .ok d
  | line :: rest, d =>
    match splitWs (pyStrip line) with
    | [fastaPath, locus] =>
      match alookup fastaFS fastaPath with
      | none => .error .ioError
      | some recs =>
        match fofnFastaAux locus recs d with
        | .error e => .error e
        | .ok d2 => parseReferenceFofnAux fastaFS rest d2
    | _ => .error .valueError

/-- Worker for parse_blasr_file: each line is split on single spaces (the
csv reader with a space delimiter); the first two fields are the query and
target names. Modelled from the spec: the BlasrM1 record layout lives
outside src; the spec promises the fields include at least query id and
target id, and a malformed record is a MalformedRecord error. The raw
query name is the key; the duplicate check is the item assignment's. -/
def parseBlasrFileAux (reference : RDict) : List Str → RDict → Except PyErr RDict
  | [], d => .ok d
  | line :: rest, d =>
    match splitOnChar ' ' line with
    | qname :: tname :: _ =>
      if reference = [] then
        match rdInsert d qname tname with
        | .error e => .error e
        | .ok d2 => parseBlasrFileAux reference rest d2
      else
        match alookup reference tname with
        | none => .error (.lookupError tname)
        | some v =>
          match rdInsert d qname v with
          | .error e => .error e
          | .ok d2 => parseBlasrFileAux reference rest d2
    | _ => .error .valueError

/-- Worker for parse_sam_file. Modelled from the spec: the SAM reader lives
outside src; the spec fixes SAM as a standard alignment stream from which
only the query name and reference name are consumed, so header lines
starting with the at-sign are skipped and tab-delimited alignment lines
yield the first field as query name and third as reference name. The raw
query name is the key; the duplicate check is the item assignment's. -/
def parseSamFileAux (reference : RDict) : List Str → RDict → Except PyErr RDict
  | [], d => .ok d
  | line :: rest, d =>
    if line.head? = some '@' then parseSamFileAux reference rest d
    else
      match splitOnChar '\t' line with
      | qname :: _ :: rname :: _ =>
        if reference = [] then
          match rdInsert d qname rname with
          | .error e => .error e
          | .ok d2 => parseSamFileAux reference rest d2
        else
          match alookup reference rname with
          | none => .error (.lookupError rname)
          | some v =>
            match rdInsert d qname v with
            | .error e => .error e
            | .ok d2 => parseSamFileAux reference rest d2
      | _ => .error .valueError

/-- The file-type of an input path: the extension after the final dot. -/
def fileType (p : Str) : Str := (splitOnChar '.' p).getLastD []

def validTypes : List Str := ["fofn".data, "txt".data, "m1".data, "sam".data]

/-- validate_input: a file type outside the four recognized extensions is an
immediate ValueError. -/
def validateInput (p : Str) : Except PyErr Unit :=
  if fileType p ∈ validTypes then .ok () else .error .valueError

/-- The contents a ReferenceDict construction may consume: the text lines of
the input file, plus the fasta file system for fofn mode. -/
structure RDInput where
  lines : List Str
  fastaFS : List (Str × List FastaRecord)

/-- The run dispatch of ReferenceDict over the validated file type. -/
def rdRun (reference : RDict) (ftype : Str) (input : RDInput) :
    Except PyErr RDict :=
  if ftype = "fofn".data then parseReferenceFofnAux input.fastaFS input.lines []
  else if ftype = "txt".data then parseLocusKeyAux input.lines []
  else if ftype = "m1".data then parseBlasrFileAux reference input.lines []
  else if ftype = "sam".data then parseSamFileAux reference input.lines []
  else .ok []

/-- ReferenceDict construction: derive the file type from the input path,
validate it, then dispatch to the matching parser. -/
def referenceDictInit (reference : RDict) (inputFile : Str) (input : RDInput) :
    Except PyErr RDict :=
  match validateInput inputFile with
  | .error e => .error e
  | .ok _ => rdRun reference (fileType inputFile) input

/-- ReferenceDict.write: one space-separated name-locus line per entry, in
the map's iteration order. -/
def rdWrite (d : RDict) : List Str := d.map (fun kv => kv.1 ++ ' ' :: kv.2)

/- ----------------------------------------------------------------- -/
/- Embedding of src/pbhla/sequences/orientation.py                   -/
/- ----------------------------------------------------------------- -/

/-- An alignment record as consumed by the orientation corrector: the query
name and the two strand fields. -/
structure BlasrAlignment where
  qname : Str
  qstrand : Str
  tstrand : Str
  deriving DecidableEq

/-- A sequence record with an optional quality (fasta or fastq). -/
structure SeqRecord where
  name : Str
  sequence : Str
  quality : Option Str
  deriving DecidableEq

/-- The file system seen by the orientation corrector: paths mapped to the
sequence records stored at them. -/
abbrev SeqFS := List (Str × List SeqRecord)

/-- Modelled from the spec: get_file_type (pbhla.filenames, outside src)
yields the extension of a filename, used to pick the fasta or fastq family. -/
def getFileType (p : Str) : Str := (splitOnChar '.' p).getLastD []

/-- The default output file: the input path without its extension, with the
oriented infix and the input's type appended. -/
def getOutputFile (inputFile : Str) : Str :=
  List.intercalate ['.'] ((splitOnChar '.' inputFile).dropLast) ++
    ".oriented.".data ++ getFileType inputFile

/-- The output-type check: only the fasta and fastq formats are accepted,
anything else is a TypeError. -/
def getOutputType (outputFile : Str) : Except PyErr Str :=
  let t := getFileType outputFile
  if t = "fasta".data ∨ t = "fastq".data then .ok t else .error .typeError

/-- The hits whose query and target strands disagree: their query names form
the orientation decision set. -/
def identifyReversedSequences (records : List BlasrAlignment) : List Str :=
  (records.filter (fun r => decide (r.qstrand ≠ r.tstrand))).map (fun r => r.qname)

/-- The input-record parse: fasta and fastq inputs are read from the file
system, any other extension is a TypeError. -/
def parseInputRecords (fs : SeqFS) (inputFile : Str) :
    Except PyErr (List SeqRecord) :=
  let t := getFileType inputFile
  if t = "fasta".data ∨ t = "fastq".data then
    match alookup fs inputFile with
    | some recs => .ok recs
    | none => .error .ioError
  else .error .typeError

/-- Modelled from the spec: the base complement used by reverse_complement
(pbhla.utilities, outside src) — each base replaced by its complementary
base, other characters untouched. -/
def complementChar (c : Char) : Char :=
  if c = 'A' then 'T' else if c = 'T' then 'A'
  else if c = 'C' then 'G' else if c = 'G' then 'C'
  else if c = 'a' then 't' else if c = 't' then 'a'
  else if c = 'c' then 'g' else if c = 'g' then 'c'
  else c

/-- Modelled from the spec: reverse_complement (outside src) — the sequence
reversed and complemented; the quality, when present, reversed in lock-step
with its values unmodified; the name unchanged. -/
def reverseComplement (r : SeqRecord) : SeqRecord :=
  ⟨r.name, (r.sequence.map complementChar).reverse, r.quality.map List.reverse⟩

/-- The per-record pass of _reverse_records: reverse-complement exactly the
records whose first name word is in the decision set, in input order; the
first-word lookup raises IndexError on an empty name. -/
def reverseRecords (records : List SeqRecord) (revSet : List Str) :
    Except PyErr (List SeqRecord) :=
  records.mapM (fun r =>
    match firstWord? r.name with
    | none => .error .indexError
    | some name => .ok (if name ∈ revSet then reverseComplement r else r))

/-- Modelled from the spec: valid_file (pbhla.utils, outside src) — the path
exists and holds non-empty output. -/
def validFile (fs : SeqFS) (p : Str) : Bool :=
  match alookup fs p with
  | some recs => !recs.isEmpty
  | none => false

/-- Modelled from the spec: check_output_file (outside src) — after a write
the output must exist and be non-empty, else the run fails. -/
def checkOutputFile (fs : SeqFS) (p : Str) : Except PyErr Unit :=
  if validFile fs p then .ok () else .error .ioError

/-- Modelled from the spec: get_alignment_file (outside src) — use the
supplied alignment evidence, else produce it by the black-box external
aligner over the input sequences. -/
def getAlignmentFile (align : List SeqRecord → List BlasrAlignment)
    (fs : SeqFS) (inputFile : Str) (alnOpt : Option (List BlasrAlignment)) :
    Except PyErr (List BlasrAlignment) :=
  match alnOpt with
  | some a => .ok a
  | none =>
    match alookup fs inputFile with
    | some recs => .ok (align recs)
    | none => .error .ioError

/-- The orient_sequences driver: fix the output path and its type, short
circuit when a valid output already exists, otherwise obtain alignment
evidence, build the decision set, reverse the flagged records, write the
result and verify it. The returned Boolean records whether the orientation
work was performed (false on the short-circuit path). -/
def orientSequences (align : List SeqRecord → List BlasrAlignment)
    (fs : SeqFS) (inputFile : Str) (alnOpt : Option (List BlasrAlignment))
    (outOpt : Option Str) : Except PyErr (Str × SeqFS × Bool) :=
  let outputFile := outOpt.getD (getOutputFile inputFile)
  match getOutputType outputFile with
  | .error e => .error e
  | .ok _ =>
    if validFile fs outputFile then .ok (outputFile, fs, false)
    else
      match getAlignmentFile align fs inputFile alnOpt with
      | .error e => .error e
      | .ok alnRecords =>
        match parseInputRecords fs inputFile with
        | .error e => .error e
        | .ok inputRecords =>
          match reverseRecords inputRecords (identifyReversedSequences alnRecords) with
          | .error e => .error e
          | .ok outRecords =>
            let fs2 := aset fs outputFile outRecords
            match checkOutputFile fs2 outputFile with
            | .error e => .error e
            | .ok _ => .ok (outputFile, fs2, true)

/-- Claim C7: constructing a ReferenceDict from an input file whose extension
is not one of fofn, txt, m1, sam fails with ValueError for every possible
input content (hence before any parsing of the input file is attempted),
and for every path with one of the four recognized extensions the
validation step passes. -/
theorem c7_extension_validation (p : Str) :
    (fileType p ∉ validTypes →
      ∀ (reference : RDict) (input : RDInput),
        referenceDictInit reference p input = .error .valueError) ∧
    (fileType p ∈ validTypes → validateInput p = .ok ()) := by
  constructor
  · intro h reference input
    simp [referenceDictInit, validateInput, h]
  · intro h
    simp [validateInput, h]

theorem c7_extension_validation_witness :
    (fileType "reads.m2".data ∉ validTypes) ∧
    (referenceDictInit [] "reads.m2".data ⟨["a b".data], []⟩ = .error .valueError) ∧
    (fileType "key.txt".data ∈ validTypes) ∧
    (validateInput "key.txt".data = .ok ()) := by
  refine ⟨by decide, ?_, by decide, ?_⟩
  · exact (c7_extension_validation "reads.m2".data).1 (by decide) [] ⟨["a b".data], []⟩
  · exact (c7_extension_validation "key.txt".data).2 (by decide)

/-- Claim C8: requesting an orientation output file whose extension is
outside the fasta and fastq formats (for example a txt file) fails with
TypeError uniformly in the file system, the aligner and the alignment
evidence — hence before any sequence record is read or written and before
any alignment is performed. -/
theorem c8_output_format_error (outputFile : Str)
    (h1 : getFileType outputFile ≠ "fasta".data)
    (h2 : getFileType outputFile ≠ "fastq".data) :
    ∀ (align : List SeqRecord → List BlasrAlignment) (fs : SeqFS)
      (inputFile : Str) (alnOpt : Option (List BlasrAlignment)),
      orientSequences align fs inputFile alnOpt (some outputFile) =
        .error .typeError := by
  intro align fs inputFile alnOpt
  simp [orientSequences, getOutputType, h1, h2]

theorem c8_output_format_error_witness :
    orientSequences (fun _ => []) [("in.fasta".data, [⟨"s".data, "ACGT".data, none⟩])]
      "in.fasta".data none (some "out.txt".data) = .error .typeError :=
  c8_output_format_error "out.txt".data (by decide) (by decide)
    (fun _ => []) [("in.fasta".data, [⟨"s".data, "ACGT".data, none⟩])]
    "in.fasta".data none

/-- Claim C6: when a valid (existing, non-empty) output file is already
present at the target path, the orientation corrector returns that path at
once — the file system is left untouched and the work flag stays false, so
no alignment, reverse-complement or write happens — and consequently a
second call right after any successful call finds the output of the first
and performs the orientation work only once. -/
theorem c6_orient_idempotent :
    (∀ (align : List SeqRecord → List BlasrAlignment) (fs : SeqFS)
       (inputFile outputFile : Str) (alnOpt : Option (List BlasrAlignment))
       (ty : Str),
      getOutputType outputFile = .ok ty → validFile fs outputFile = true →
      orientSequences align fs inputFile alnOpt (some outputFile) =
        .ok (outputFile, fs, false)) ∧
    (∀ (align : List SeqRecord → List BlasrAlignment) (fs : SeqFS)
       (inputFile : Str) (alnOpt : Option (List BlasrAlignment))
       (outOpt : Option Str) (p : Str) (fs2 : SeqFS) (w : Bool),
      orientSequences align fs inputFile alnOpt outOpt = .ok (p, fs2, w) →
      orientSequences align fs2 inputFile alnOpt outOpt = .ok (p, fs2, false)) := by
  constructor
  · intro align fs inputFile outputFile alnOpt ty hty hvalid
    simp only [orientSequences, Option.getD_some, hty, hvalid, if_true]
  · intro align fs inputFile alnOpt outOpt p fs2 w hrun
    simp only [orientSequences] at hrun ⊢
    rcases hty : getOutputType (outOpt.getD (getOutputFile inputFile)) with e | ty
    · simp [hty] at hrun
    · simp only [hty] at hrun ⊢
      by_cases hvalid : validFile fs (outOpt.getD (getOutputFile inputFile)) = true
      · rw [if_pos hvalid] at hrun
        simp only [Except.ok.injEq, Prod.mk.injEq] at hrun
        obtain ⟨hp, hfs, hw⟩ := hrun
        subst hp; subst hfs
        rw [if_pos hvalid]
      · rw [if_neg hvalid] at hrun
        rcases ha : getAlignmentFile align fs inputFile alnOpt with e | alnRecords
        · simp [ha] at hrun
        · simp only [ha] at hrun
          rcases hi : parseInputRecords fs inputFile with e | inputRecords
          · simp [hi] at hrun
          · simp only [hi] at hrun
            rcases hr : reverseRecords inputRecords
                (identifyReversedSequences alnRecords) with e | outRecords
            · simp [hr] at hrun
            · simp only [hr] at hrun
              rcases hc : checkOutputFile
                  (aset fs (outOpt.getD (getOutputFile inputFile)) outRecords)
                  (outOpt.getD (getOutputFile inputFile)) with e | u
              · simp [hc] at hrun
              · simp only [hc] at hrun
                simp only [Except.ok.injEq, Prod.mk.injEq] at hrun
                obtain ⟨hp, hfs, hw⟩ := hrun
                subst hp; subst hfs
                have hv2 : validFile
                    (aset fs (outOpt.getD (getOutputFile inputFile)) outRecords)
                    (outOpt.getD (getOutputFile inputFile)) = true := by
                  by_contra hno
                  simp only [checkOutputFile, hno] at hc
                  simp at hc
                rw [if_pos hv2]

theorem c6_orient_idempotent_witness :
    (orientSequences (fun _ => []) [("r.oriented.fasta".data, [⟨"s".data, "ACGT".data, none⟩])]
        "r.fasta".data none (some "r.oriented.fasta".data) =
      .ok ("r.oriented.fasta".data,
        [("r.oriented.fasta".data, [⟨"s".data, "ACGT".data, none⟩])], false)) ∧
    (orientSequences (fun _ => []) [("r.oriented.fasta".data, [⟨"s".data, "ACGT".data, none⟩])]
        "r.fasta".data none (some "r.oriented.fasta".data) =
      .ok ("r.oriented.fasta".data,
        [("r.oriented.fasta".data, [⟨"s".data, "ACGT".data, none⟩])], false)) := by
  constructor
  · exact c6_orient_idempotent.1 (fun _ => [])
      [("r.oriented.fasta".data, [⟨"s".data, "ACGT".data, none⟩])]
      "r.fasta".data "r.oriented.fasta".data none "fasta".data (by decide) (by decide)
  · exact c6_orient_idempotent.2 (fun _ => [])
      [("r.oriented.fasta".data, [⟨"s".data, "ACGT".data, none⟩])]
      "r.fasta".data none (some "r.oriented.fasta".data)
      "r.oriented.fasta".data
      [("r.oriented.fasta".data, [⟨"s".data, "ACGT".data, none⟩])] false
      (c6_orient_idempotent.1 (fun _ => [])
        [("r.oriented.fasta".data, [⟨"s".data, "ACGT".data, none⟩])]
        "r.fasta".data "r.oriented.fasta".data none "fasta".data (by decide) (by decide))

theorem exceptMapM_ok {α β : Type} (f : α → Except PyErr β) (g : α → β)
    (l : List α) (h : ∀ x ∈ l, f x = .ok (g x)) :
    l.mapM f = .ok (l.map g) := by
  induction l with
  | nil => rfl
  | cons x xs ih =>
    rw [List.mapM_cons, h x (by simp)]
    rw [ih (fun y hy => h y (by simp [hy]))]
    rfl

/-- Claim C3: the orientation corrector reverse-complements exactly those
input records whose first name word lies in the decision set — the query
names of the alignment hits whose query and target strands differ — leaves
every other record unchanged, emits the records in input order, and the
reverse complement keeps the name, reverses-and-complements the sequence,
and reverses the quality (when present) in lock-step with its values
unmodified. The hypothesis only rules out the IndexError path taken on a
record with an all-whitespace name. -/
theorem c3_orientation_correction (alnRecords : List BlasrAlignment)
    (records : List SeqRecord)
    (h : ∀ r ∈ records, (firstWord? r.name).isSome) :
    ∃ out, reverseRecords records (identifyReversedSequences alnRecords) = .ok out ∧
      out.length = records.length ∧
      (∀ i (hi : i < records.length) (hi2 : i < out.length),
        out.get ⟨i, hi2⟩ =
          if (firstWord? (records.get ⟨i, hi⟩).name).getD [] ∈
              identifyReversedSequences alnRecords
          then reverseComplement (records.get ⟨i, hi⟩)
          else records.get ⟨i, hi⟩) ∧
      (∀ r : SeqRecord, (reverseComplement r).name = r.name ∧
        (reverseComplement r).sequence = (r.sequence.map complementChar).reverse ∧
        (reverseComplement r).quality = r.quality.map List.reverse) ∧
      (∀ w, w ∈ identifyReversedSequences alnRecords ↔
        ∃ a ∈ alnRecords, a.qstrand ≠ a.tstrand ∧ a.qname = w) := by
  refine ⟨records.map (fun r =>
    if (firstWord? r.name).getD [] ∈ identifyReversedSequences alnRecords
    then reverseComplement r else r), ?_, by simp, ?_, ?_, ?_⟩
  · apply exceptMapM_ok
    intro r hr
    rcases hw : firstWord? r.name with _ | w
    · exact absurd (h r hr) (by simp [hw])
    · simp [hw]
  · intro i hi hi2
    simp [List.getElem_map]
  · intro r
    exact ⟨rfl, rfl, rfl⟩
  · intro w
    simp only [identifyReversedSequences, List.mem_map, List.mem_filter,
      decide_eq_true_eq]
    constructor
    · rintro ⟨a, ⟨ha, hs⟩, hn⟩
      exact ⟨a, ha, hs, hn⟩
    · rintro ⟨a, ha, hs, hn⟩
      exact ⟨a, ⟨ha, hs⟩, hn⟩

theorem c3_orientation_correction_witness :
    (∀ r ∈ [(⟨"q1 extra".data, "AACG".data, some "!!##".data⟩ : SeqRecord),
            ⟨"q2".data, "AACG".data, none⟩],
      (firstWord? r.name).isSome) ∧
    ∃ out,
      reverseRecords
        [⟨"q1 extra".data, "AACG".data, some "!!##".data⟩, ⟨"q2".data, "AACG".data, none⟩]
        (identifyReversedSequences [⟨"q1".data, "0".data, "1".data⟩]) = .ok out ∧
      out.length = 2 := by
  have h := c3_orientation_correction [⟨"q1".data, "0".data, "1".data⟩]
    [⟨"q1 extra".data, "AACG".data, some "!!##".data⟩, ⟨"q2".data, "AACG".data, none⟩]
    (by decide)
  obtain ⟨out, h1, h2, _⟩ := h
  exact ⟨by decide, out, h1, by rw [h2]; rfl⟩

theorem splitWsAux_words (w : Str) (hw : ∀ c ∈ w, pyIsSpace c = false) :
    ∀ (r acc : Str), splitWsAux (w ++ r) acc = splitWsAux r (w.reverse ++ acc) := by
  induction w with
  | nil => intro r acc; simp
  | cons c w2 ih =>
    intro r acc
    have hc : pyIsSpace c = false := hw c (by simp)
    simp only [List.cons_append, splitWsAux, hc, Bool.false_eq_true, if_false,
      List.append_eq]
    rw [ih (fun x hx => hw x (by simp [hx])) r (c :: acc)]
    simp

theorem splitWs_pair (k v : Str) (hk : k ≠ []) (hv : v ≠ [])
    (hkc : ∀ c ∈ k, pyIsSpace c = false) (hvc : ∀ c ∈ v, pyIsSpace c = false) :
    splitWs (k ++ ' ' :: v) = [k, v] := by
  unfold splitWs
  rw [splitWsAux_words k hkc (' ' :: v) []]
  simp only [List.append_nil]
  have hsp : pyIsSpace ' ' = true := rfl
  simp only [splitWsAux, hsp, if_true]
  have hkr : ¬ (k.reverse = []) := by simpa using hk
  rw [if_neg hkr, List.reverse_reverse]
  have hvw := splitWsAux_words v hvc [] []
  simp only [List.append_nil] at hvw
  rw [hvw]
  simp only [splitWsAux]
  have hvr : ¬ (v.reverse = []) := by simpa using hv
  rw [if_neg hvr, List.reverse_reverse]

theorem dropWhile_eq_self_of_head (s : Str)
    (h : ∀ c, s.head? = some c → pyIsSpace c = false) :
    s.dropWhile pyIsSpace = s := by
  cases s with
  | nil => rfl
  | cons c cs =>
    rw [List.dropWhile_cons, if_neg]
    simp [h c rfl]

theorem head?_reverse_eq_getLast? (l : Str) : l.reverse.head? = l.getLast? := by
  rcases hl : l.reverse with _ | ⟨c, t⟩
  · rw [List.reverse_eq_nil_iff] at hl
    subst hl; rfl
  · have hl2 : l = t.reverse ++ [c] := by
      have := congrArg List.reverse hl
      simpa using this
    subst hl2
    simp [List.reverse_append, List.getLast?_append_cons]

theorem pyStrip_eq_self (s : Str)
    (h1 : ∀ c, s.head? = some c → pyIsSpace c = false)
    (h2 : ∀ c, s.getLast? = some c → pyIsSpace c = false) :
    pyStrip s = s := by
  unfold pyStrip
  rw [dropWhile_eq_self_of_head s h1]
  rw [dropWhile_eq_self_of_head s.reverse
    (fun c hc => h2 c (by rwa [head?_reverse_eq_getLast?] at hc))]
  exact List.reverse_reverse s

theorem stripSplit_pair (k v : Str) (hk : k ≠ []) (hv : v ≠ [])
    (hkc : ∀ c ∈ k, pyIsSpace c = false) (hvc : ∀ c ∈ v, pyIsSpace c = false) :
    splitWs (pyStrip (k ++ ' ' :: v)) = [k, v] := by
  rw [pyStrip_eq_self]
  · exact splitWs_pair k v hk hv hkc hvc
  · intro c hc
    rcases k with _ | ⟨c0, k2⟩
    · exact absurd rfl hk
    · simp only [List.cons_append, List.head?_cons, Option.some.injEq] at hc
      subst hc
      exact hkc c0 (by simp)
  · intro c hc
    rw [List.getLast?_append_cons] at hc
    rcases v with _ | ⟨v0, v2⟩
    · exact absurd rfl hv
    · rw [List.getLast?_cons_cons] at hc
      obtain ⟨hne, heq⟩ := List.mem_getLast?_eq_getLast (Option.mem_def.mpr hc)
      have hmem : c ∈ v0 :: v2 := heq ▸ List.getLast_mem hne
      exact hvc c hmem

theorem parseLocusKeyAux_rdWrite (d : RDict) : ∀ acc : RDict,
    ((acc ++ d).map Prod.fst).Nodup →
    (∀ p ∈ d, p.1 ≠ [] ∧ p.2 ≠ [] ∧ (∀ c ∈ p.1, pyIsSpace c = false) ∧
      (∀ c ∈ p.2, pyIsSpace c = false)) →
    parseLocusKeyAux (rdWrite d) acc = .ok (acc ++ d) := by
  induction d with
  | nil => intro acc _ _; simp [rdWrite, parseLocusKeyAux]
  | cons kv d2 ih =>
    intro acc hnd hwf
    rcases kv with ⟨k, v⟩
    obtain ⟨hk, hv, hkc, hvc⟩ := hwf (k, v) (by simp)
    have hsplit := stripSplit_pair k v hk hv hkc hvc
    simp only [rdWrite, List.map_cons, parseLocusKeyAux, hsplit]
    have hnone : alookup acc k = none := by
      rw [alookup_eq_none_iff]
      intro hmem
      have hnd2 := hnd
      rw [List.map_append] at hnd2
      exact (List.nodup_append.mp hnd2).2.2 hmem (by simp)
    simp only [rdInsert, hnone, Option.isSome_none, Bool.false_eq_true, if_false]
    rw [aset_eq_append_of_none acc k v hnone]
    have hnd3 : (((acc ++ [(k, v)]) ++ d2).map Prod.fst).Nodup := by
      have he : (acc ++ [(k, v)]) ++ d2 = acc ++ ((k, v) :: d2) := by simp
      rw [he]; exact hnd
    have hrec := ih (acc ++ [(k, v)]) hnd3 (fun p hp => hwf p (by simp [hp]))
    rw [show rdWrite d2 = d2.map (fun kv => kv.1 ++ ' ' :: kv.2) from rfl] at hrec
    rw [hrec]
    simp

theorem parseLocusKeyAux_nodup : ∀ (lines : List Str) (acc m : RDict),
    (acc.map Prod.fst).Nodup → parseLocusKeyAux lines acc = .ok m →
    (m.map Prod.fst).Nodup := by
  intro lines
  induction lines with
  | nil =>
    intro acc m h hp
    simp only [parseLocusKeyAux, Except.ok.injEq] at hp
    exact hp ▸ h
  | cons line rest ih =>
    intro acc m h hp
    simp only [parseLocusKeyAux] at hp
    rcases hs : splitWs (pyStrip line) with _ | ⟨a, _ | ⟨b, _ | ⟨c, t⟩⟩⟩ <;>
      rw [hs] at hp
    · simp at hp
    · simp at hp
    · by_cases hla : (alookup acc a).isSome = true
      · simp [rdInsert, hla] at hp
      · simp only [rdInsert, hla, Bool.false_eq_true, if_false] at hp
        have hnone : alookup acc a = none := by
          rcases ho : alookup acc a with _ | x
          · rfl
          · exact absurd (by simp [ho]) hla
        rw [aset_eq_append_of_none acc a b hnone] at hp
        apply ih (acc ++ [(a, b)]) m _ hp
        rw [List.map_append]
        refine List.nodup_append.mpr ⟨h, by simp, ?_⟩
        intro x hx hx2
        simp only [List.map_cons, List.map_nil, List.mem_singleton] at hx2
        subst hx2
        exact (alookup_eq_none_iff acc x).mp hnone hx
    · simp at hp

/-- Claim C5 counterexample: the locus map holding the empty id (which
contains no whitespace) under the label A writes the line of a single
space followed by A, which reloads as one field and fails, so the
round-trip does not reproduce the mapping as the claim states. -/
theorem c5_roundtrip_counterexample :
    ((([(([] : Str), ['A'])] : RDict).map Prod.fst).Nodup) ∧
    (∀ p ∈ ([(([] : Str), ['A'])] : RDict),
      (∀ c ∈ p.1, pyIsSpace c = false) ∧ (∀ c ∈ p.2, pyIsSpace c = false)) ∧
    parseLocusKey (rdWrite [(([] : Str), ['A'])]) = .error .valueError := by
  refine ⟨by decide, by decide, ?_⟩
  decide

/-- Claim C5 (amended): for every locus assignment map whose ids and labels
are non-empty and contain no whitespace, writing it to a key file and
reloading that file in key-file mode reproduces exactly the same
key-to-value pairs, and the duplicate-insert check is still enforced during
any key-file reload (every successfully reloaded map has pairwise distinct
keys). -/
theorem c5_roundtrip_amended (d : RDict)
    (hnd : (d.map Prod.fst).Nodup)
    (hwf : ∀ p ∈ d, p.1 ≠ [] ∧ p.2 ≠ [] ∧ (∀ c ∈ p.1, pyIsSpace c = false) ∧
      (∀ c ∈ p.2, pyIsSpace c = false)) :
    parseLocusKey (rdWrite d) = .ok d ∧
    (∀ (lines : List Str) (m : RDict), parseLocusKey lines = .ok m →
      (m.map Prod.fst).Nodup) := by
  constructor
  · have hmain := parseLocusKeyAux_rdWrite d [] (by simpa using hnd) hwf
    simpa [parseLocusKey] using hmain
  · intro lines m hp
    exact parseLocusKeyAux_nodup lines [] m (by simp) hp

theorem c5_roundtrip_amended_witness :
    parseLocusKey (rdWrite [("s1".data, "A".data), ("s2".data, "B".data)]) =
      .ok [("s1".data, "A".data), ("s2".data, "B".data)] :=
  (c5_roundtrip_amended [("s1".data, "A".data), ("s2".data, "B".data)]
    (by decide) (by decide)).1

theorem createM1Aux_ok_nodup (normalize : Str → Str) (reference : RDict) :
    ∀ (rs : List BlasrM1Record) (acc m : RDict),
    createM1Aux normalize reference rs acc = .ok m →
    ((rs.map (fun r => normalize r.qname)).Nodup ∧
      ∀ k ∈ rs.map (fun r => normalize r.qname), alookup acc k = none) := by
  intro rs
  induction rs with
  | nil => intro acc m _; exact ⟨List.nodup_nil, by simp⟩
  | cons r rs2 ih =>
    intro acc m hok
    simp only [createM1Aux] at hok
    by_cases hdup : (alookup acc (normalize r.qname)).isSome = true
    · rw [if_pos hdup] at hok; simp at hok
    · rw [if_neg hdup] at hok
      have hnone : alookup acc (normalize r.qname) = none := by
        rcases ho : alookup acc (normalize r.qname) with _ | x
        · rfl
        · exact absurd (by simp [ho]) hdup
      have hrec : ∃ v, createM1Aux normalize reference rs2
          (aset acc (normalize r.qname) v) = .ok m := by
        by_cases href : reference = []
        · rw [if_pos href] at hok; exact ⟨normalize r.tname, hok⟩
        · rw [if_neg href] at hok
          rcases hl : alookup reference (normalize r.tname) with _ | v <;>
            rw [hl] at hok
          · simp at hok
          · exact ⟨v, hok⟩
      obtain ⟨v, hrec⟩ := hrec
      obtain ⟨hnd2, hacc2⟩ := ih (aset acc (normalize r.qname) v) m hrec
      constructor
      · simp only [List.map_cons, List.nodup_cons]
        refine ⟨fun hmem => ?_, hnd2⟩
        have hcontr := hacc2 (normalize r.qname) hmem
        rw [alookup_aset] at hcontr
        simp at hcontr
      · intro k hk
        simp only [List.map_cons, List.mem_cons] at hk
        rcases hk with hk | hk
        · exact hk ▸ hnone
        · have hcontr := hacc2 k hk
          rw [alookup_aset] at hcontr
          by_cases he : normalize r.qname = k
          · rw [if_pos he] at hcontr; simp at hcontr
          · rwa [if_neg he] at hcontr

theorem createAmpAssemAux_ok_nodup (normalize : Str → Str) (reference : RDict) :
    ∀ (rs : List BlasrM1Record) (acc m : RDict),
    createAmpAssemAux normalize reference rs acc = .ok m →
    ((rs.map (fun r => normalize r.qname)).Nodup ∧
      ∀ k ∈ rs.map (fun r => normalize r.qname), alookup acc k = none) := by
  intro rs
  induction rs with
  | nil => intro acc m _; exact ⟨List.nodup_nil, by simp⟩
  | cons r rs2 ih =>
    intro acc m hok
    simp only [createAmpAssemAux] at hok
    rcases hloc : (splitOnChar '_' (normalize r.qname)).get? 1 with _ | locus <;>
      simp only [hloc] at hok
    · simp at hok
    · by_cases hdup : (alookup acc (normalize r.qname)).isSome = true
      · rw [if_pos hdup] at hok; simp at hok
      · rw [if_neg hdup] at hok
        have hnone : alookup acc (normalize r.qname) = none := by
          rcases ho : alookup acc (normalize r.qname) with _ | x
          · rfl
          · exact absurd (by simp [ho]) hdup
        have hrec : ∃ v, createAmpAssemAux normalize reference rs2
            (aset acc (normalize r.qname) v) = .ok m := by
          by_cases href : reference = []
          · rw [if_pos href] at hok; exact ⟨locus, hok⟩
          · rw [if_neg href] at hok
            rcases hl : alookup reference locus with _ | v <;> rw [hl] at hok
            · simp at hok
            · exact ⟨v, hok⟩
        obtain ⟨v, hrec⟩ := hrec
        obtain ⟨hnd2, hacc2⟩ := ih (aset acc (normalize r.qname) v) m hrec
        constructor
        · simp only [List.map_cons, List.nodup_cons]
          refine ⟨fun hmem => ?_, hnd2⟩
          have hcontr := hacc2 (normalize r.qname) hmem
          rw [alookup_aset] at hcontr
          simp at hcontr
        · intro k hk
          simp only [List.map_cons, List.mem_cons] at hk
          rcases hk with hk | hk
          · exact hk ▸ hnone
          · have hcontr := hacc2 k hk
            rw [alookup_aset] at hcontr
            by_cases he : normalize r.qname = k
            · rw [if_pos he] at hcontr; simp at hcontr
            · rwa [if_neg he] at hcontr

theorem createSamAux_ok_nodup (normalize : Str → Str) (reference : RDict) :
    ∀ (rs : List SamRecord) (acc m : RDict),
    createSamAux normalize reference rs acc = .ok m →
    ((rs.map (fun r => r.qname)).Nodup ∧
      ∀ k ∈ rs.map (fun r => r.qname), alookup acc k = none) := by
  intro rs
  induction rs with
  | nil => intro acc m _; exact ⟨List.nodup_nil, by simp⟩
  | cons r rs2 ih =>
    intro acc m hok
    simp only [createSamAux] at hok
    by_cases hdup : (alookup acc r.qname).isSome = true
    · rw [if_pos hdup] at hok; simp at hok
    · rw [if_neg hdup] at hok
      have hnone : alookup acc r.qname = none := by
        rcases ho : alookup acc r.qname with _ | x
        · rfl
        · exact absurd (by simp [ho]) hdup
      have hrec : ∃ v, createSamAux normalize reference rs2
          (aset acc r.qname v) = .ok m := by
        by_cases href : reference = []
        · rw [if_pos href] at hok; exact ⟨normalize r.rname, hok⟩
        · rw [if_neg href] at hok
          rcases hl : alookup reference (normalize r.rname) with _ | v <;>
            rw [hl] at hok
          · simp at hok
          · exact ⟨v, hok⟩
      obtain ⟨v, hrec⟩ := hrec
      obtain ⟨hnd2, hacc2⟩ := ih (aset acc r.qname v) m hrec
      constructor
      · simp only [List.map_cons, List.nodup_cons]
        refine ⟨fun hmem => ?_, hnd2⟩
        have hcontr := hacc2 r.qname hmem
        rw [alookup_aset] at hcontr
        simp at hcontr
      · intro k hk
        simp only [List.map_cons, List.mem_cons] at hk
        rcases hk with hk | hk
        · exact hk ▸ hnone
        · have hcontr := hacc2 k hk
          rw [alookup_aset] at hcontr
          by_cases he : r.qname = k
          · rw [if_pos he] at hcontr; simp at hcontr
          · rwa [if_neg he] at hcontr

theorem phasedFileAux_ok (contig : Str) :
    ∀ (recs : List FastaRecord) (acc m : RDict),
    phasedFileAux contig recs acc = .ok m →
    ((∀ w, (∃ r ∈ recs, firstWord? r.name = some w) → alookup m w = some contig) ∧
     (∀ w, (¬ ∃ r ∈ recs, firstWord? r.name = some w) →
       alookup m w = alookup acc w)) := by
  intro recs
  induction recs with
  | nil =>
    intro acc m hok
    simp only [phasedFileAux, Except.ok.injEq] at hok
    subst hok
    exact ⟨fun w hw => absurd hw (by simp), fun w _ => rfl⟩
  | cons r rest ih =>
    intro acc m hok
    simp only [phasedFileAux] at hok
    rcases hw0 : firstWord? r.name with _ | w0 <;> rw [hw0] at hok
    · simp at hok
    · obtain ⟨ih1, ih2⟩ := ih (aset acc w0 contig) m hok
      constructor
      · intro w hw
        by_cases hrest : ∃ r2 ∈ rest, firstWord? r2.name = some w
        · exact ih1 w hrest
        · have hww : w = w0 := by
            rcases hw with ⟨r2, hr2, hfw⟩
            rcases List.mem_cons.mp hr2 with he | hm
            · subst he
              rw [hw0] at hfw
              exact (Option.some.inj hfw).symm
            · exact absurd ⟨r2, hm, hfw⟩ hrest
          subst hww
          rw [ih2 w hrest, alookup_aset, if_pos rfl]
      · intro w hw
        have hw0ne : w ≠ w0 := by
          intro he; subst he
          exact hw ⟨r, by simp, hw0⟩
        have hrest : ¬ ∃ r2 ∈ rest, firstWord? r2.name = some w := by
          rintro ⟨r2, hr2, hfw⟩
          exact hw ⟨r2, by simp [hr2], hfw⟩
        rw [ih2 w hrest, alookup_aset, if_neg (fun he => hw0ne he.symm)]

theorem createPhasedAux_append :
    ∀ (l1 l2 : List (Str × List FastaRecord)) (acc : RDict),
    createPhasedAux (l1 ++ l2) acc =
      match createPhasedAux l1 acc with
      | .error e => .error e
      | .ok acc2 => createPhasedAux l2 acc2 := by
  intro l1
  induction l1 with
  | nil => intro l2 acc; simp [createPhasedAux]
  | cons f l12 ih =>
    intro l2 acc
    rcases f with ⟨path, recs⟩
    simp only [List.cons_append, createPhasedAux]
    rcases hp : phasedFileAux (phasedContigName path) recs acc with e | acc2
    · rfl
    · exact ih l2 acc2

/-- Claim C1 counterexample: a phased-contig manifest naming the same
sequence from two files resolves without any error: the later contig
assignment silently overwrites the earlier one, contradicting the claim
that every single-alignment-per-query format (including phased-contig
manifests) fails with a duplicate KeyError. -/
theorem c1_duplicate_counterexample :
    createPhasedReference
      [("a.fasta".data, [⟨"seq1".data, "ACGT".data⟩]),
       ("b.fasta".data, [⟨"seq1".data, "ACGT".data⟩])] =
      .ok [("seq1".data, "b_cns".data)] := by decide

/-- Claim C1 (amended): for the single-best-hit m1 resolver, the
amplicon-locus m1 variant and the SAM resolver, two records reducing to
the same query key force a failure (the resolution never returns a map),
and a ReferenceDict insertion on an existing key is a KeyError — but the
phased-contig manifest resolver performs no duplicate check: when it
succeeds, a name occurring in the manifest's last file is mapped to that
file's contig, overwriting any earlier assignment. -/
theorem c1_amended_duplicates :
    (∀ (normalize : Str → Str) (reference : RDict) (records : List BlasrM1Record),
      ¬ (records.map (fun r => normalize r.qname)).Nodup →
      ∃ e, createM1Reference normalize reference records = .error e) ∧
    (∀ (normalize : Str → Str) (reference : RDict) (records : List BlasrM1Record),
      ¬ (records.map (fun r => normalize r.qname)).Nodup →
      ∃ e, createAmpAssemReference normalize reference records = .error e) ∧
    (∀ (normalize : Str → Str) (reference : RDict) (records : List SamRecord),
      ¬ (records.map (fun r => r.qname)).Nodup →
      ∃ e, createSamReference normalize reference records = .error e) ∧
    (∀ (d : RDict) (k v v2 : Str), alookup d k = some v →
      rdInsert d k v2 = .error (.keyError k)) ∧
    (∀ (fs : List (Str × List FastaRecord)) (path : Str)
       (recs : List FastaRecord) (m : RDict),
      createPhasedReference (fs ++ [(path, recs)]) = .ok m →
      ∀ r ∈ recs, ∀ w, firstWord? r.name = some w →
        alookup m w = some (phasedContigName path)) := by
  refine ⟨?_, ?_, ?_, ?_, ?_⟩
  · intro normalize reference records hnd
    rcases hres : createM1Reference normalize reference records with e | m
    · exact ⟨e, rfl⟩
    · exact absurd (createM1Aux_ok_nodup normalize reference records [] m hres).1 hnd
  · intro normalize reference records hnd
    rcases hres : createAmpAssemReference normalize reference records with e | m
    · exact ⟨e, rfl⟩
    · exact absurd (createAmpAssemAux_ok_nodup normalize reference records [] m hres).1 hnd
  · intro normalize reference records hnd
    rcases hres : createSamReference normalize reference records with e | m
    · exact ⟨e, rfl⟩
    · exact absurd (createSamAux_ok_nodup normalize reference records [] m hres).1 hnd
  · intro d k v v2 hk
    simp [rdInsert, hk]
  · intro fs path recs m hok r hr w hw
    rw [createPhasedReference, createPhasedAux_append] at hok
    rcases h1 : createPhasedAux fs [] with e | acc1 <;> rw [h1] at hok
    · simp at hok
    · simp only [createPhasedAux] at hok
      rcases h2 : phasedFileAux (phasedContigName path) recs acc1 with e | acc2 <;>
        rw [h2] at hok
      · simp at hok
      · simp only [Except.ok.injEq] at hok
        subst hok
        exact (phasedFileAux_ok (phasedContigName path) recs acc1 _ h2).1 w ⟨r, hr, hw⟩

theorem c1_amended_duplicates_witness :
    (∃ e, createM1Reference (fun s => s) []
      [⟨"q".data, "t1".data⟩, ⟨"q".data, "t2".data⟩] = .error e) ∧
    (∃ e, createAmpAssemReference (fun s => s) []
      [⟨"a_b".data, "t1".data⟩, ⟨"a_b".data, "t2".data⟩] = .error e) ∧
    (∃ e, createSamReference (fun s => s) []
      [⟨"q".data, "r1".data⟩, ⟨"q".data, "r2".data⟩] = .error e) ∧
    (rdInsert [("k".data, "v".data)] "k".data "w".data =
      .error (.keyError "k".data)) ∧
    (alookup [("seq1".data, "b_cns".data)] "seq1".data =
      some (phasedContigName "b.fasta".data)) := by
  refine ⟨?_, ?_, ?_, ?_, ?_⟩
  · exact c1_amended_duplicates.1 (fun s => s) []
      [⟨"q".data, "t1".data⟩, ⟨"q".data, "t2".data⟩] (by decide)
  · exact c1_amended_duplicates.2.1 (fun s => s) []
      [⟨"a_b".data, "t1".data⟩, ⟨"a_b".data, "t2".data⟩] (by decide)
  · exact c1_amended_duplicates.2.2.1 (fun s => s) []
      [⟨"q".data, "r1".data⟩, ⟨"q".data, "r2".data⟩] (by decide)
  · exact c1_amended_duplicates.2.2.2.1 [("k".data, "v".data)] "k".data
      "v".data "w".data (by decide)
  · exact c1_amended_duplicates.2.2.2.2 [("a.fasta".data, [⟨"seq1".data, "ACGT".data⟩])]
      "b.fasta".data [⟨"seq1".data, "ACGT".data⟩] [("seq1".data, "b_cns".data)]
      (by decide) ⟨"seq1".data, "ACGT".data⟩ (by simp) "seq1".data (by decide)

theorem rdInsert_ok {d d2 : RDict} {k v : Str} (h : rdInsert d k v = .ok d2) :
    alookup d k = none ∧ d2 = d ++ [(k, v)] := by
  by_cases hdup : (alookup d k).isSome = true
  · simp [rdInsert, hdup] at h
  · have hnone : alookup d k = none := by
      rcases ho : alookup d k with _ | x
      · rfl
      · exact absurd (by simp [ho]) hdup
    rw [rdInsert, if_neg hdup] at h
    simp only [Except.ok.injEq] at h
    exact ⟨hnone, h.symm.trans (aset_eq_append_of_none d k v hnone)⟩

theorem createM1Aux_keys (normalize : Str → Str) (reference : RDict) :
    ∀ (rs : List BlasrM1Record) (acc m : RDict),
    createM1Aux normalize reference rs acc = .ok m →
    m.map Prod.fst = acc.map Prod.fst ++ rs.map (fun r => normalize r.qname) := by
  intro rs
  induction rs with
  | nil =>
    intro acc m hok
    simp only [createM1Aux, Except.ok.injEq] at hok
    simp [← hok]
  | cons r rs2 ih =>
    intro acc m hok
    simp only [createM1Aux] at hok
    by_cases hdup : (alookup acc (normalize r.qname)).isSome = true
    · rw [if_pos hdup] at hok; simp at hok
    · rw [if_neg hdup] at hok
      have hnone : alookup acc (normalize r.qname) = none := by
        rcases ho : alookup acc (normalize r.qname) with _ | x
        · rfl
        · exact absurd (by simp [ho]) hdup
      have hrec : ∃ v, createM1Aux normalize reference rs2
          (aset acc (normalize r.qname) v) = .ok m := by
        by_cases href : reference = []
        · rw [if_pos href] at hok; exact ⟨normalize r.tname, hok⟩
        · rw [if_neg href] at hok
          rcases hl : alookup reference (normalize r.tname) with _ | v <;>
            rw [hl] at hok
          · simp at hok
          · exact ⟨v, hok⟩
      obtain ⟨v, hrec⟩ := hrec
      have hkeys := ih (aset acc (normalize r.qname) v) m hrec
      rw [aset_eq_append_of_none acc (normalize r.qname) v hnone] at hkeys
      simp only [List.map_append, List.map_cons, List.map_nil] at hkeys
      rw [hkeys]
      simp

theorem createSamAux_keys (normalize : Str → Str) (reference : RDict) :
    ∀ (rs : List SamRecord) (acc m : RDict),
    createSamAux normalize reference rs acc = .ok m →
    m.map Prod.fst = acc.map Prod.fst ++ rs.map (fun r => r.qname) := by
  intro rs
  induction rs with
  | nil =>
    intro acc m hok
    simp only [createSamAux, Except.ok.injEq] at hok
    simp [← hok]
  | cons r rs2 ih =>
    intro acc m hok
    simp only [createSamAux] at hok
    by_cases hdup : (alookup acc r.qname).isSome = true
    · rw [if_pos hdup] at hok; simp at hok
    · rw [if_neg hdup] at hok
      have hnone : alookup acc r.qname = none := by
        rcases ho : alookup acc r.qname with _ | x
        · rfl
        · exact absurd (by simp [ho]) hdup
      have hrec : ∃ v, createSamAux normalize reference rs2
          (aset acc r.qname v) = .ok m := by
        by_cases href : reference = []
        · rw [if_pos href] at hok; exact ⟨normalize r.rname, hok⟩
        · rw [if_neg href] at hok
          rcases hl : alookup reference (normalize r.rname) with _ | v <;>
            rw [hl] at hok
          · simp at hok
          · exact ⟨v, hok⟩
      obtain ⟨v, hrec⟩ := hrec
      have hkeys := ih (aset acc r.qname v) m hrec
      rw [aset_eq_append_of_none acc r.qname v hnone] at hkeys
      simp only [List.map_append, List.map_cons, List.map_nil] at hkeys
      rw [hkeys]
      simp

theorem parseBlasrFileAux_keys (reference : RDict) :
    ∀ (lines : List Str) (acc m : RDict),
    parseBlasrFileAux reference lines acc = .ok m →
    m.map Prod.fst =
      acc.map Prod.fst ++ lines.map (fun l => (splitOnChar ' ' l).headD []) := by
  intro lines
  induction lines with
  | nil =>
    intro acc m hok
    simp only [parseBlasrFileAux, Except.ok.injEq] at hok
    simp [← hok]
  | cons line rest ih =>
    intro acc m hok
    simp only [parseBlasrFileAux] at hok
    rcases hsp : splitOnChar ' ' line with _ | ⟨qn, _ | ⟨tn, restF⟩⟩ <;>
      simp only [hsp] at hok
    · simp at hok
    · simp at hok
    · have hstep : ∃ v, rdInsert acc qn v = .ok (acc ++ [(qn, v)]) ∧
          parseBlasrFileAux reference rest (acc ++ [(qn, v)]) = .ok m := by
        by_cases href : reference = []
        · rw [if_pos href] at hok
          rcases hins : rdInsert acc qn tn with e | d2 <;> simp only [hins] at hok
          · simp at hok
          · obtain ⟨_, hd2⟩ := rdInsert_ok hins
            subst hd2
            exact ⟨tn, hins, hok⟩
        · rw [if_neg href] at hok
          rcases hl : alookup reference tn with _ | v <;> rw [hl] at hok
          · simp at hok
          · rcases hins : rdInsert acc qn v with e | d2 <;> simp only [hins] at hok
            · simp at hok
            · obtain ⟨_, hd2⟩ := rdInsert_ok hins
              subst hd2
              exact ⟨v, hins, hok⟩
      obtain ⟨v, _, hrec⟩ := hstep
      have hkeys := ih (acc ++ [(qn, v)]) m hrec
      simp only [List.map_append, List.map_cons, List.map_nil] at hkeys
      rw [hkeys]
      simp [hsp]

theorem parseSamFileAux_keys (reference : RDict) :
    ∀ (lines : List Str) (acc m : RDict),
    parseSamFileAux reference lines acc = .ok m →
    m.map Prod.fst =
      acc.map Prod.fst ++
        ((lines.filter (fun l => decide (l.head? ≠ some '@'))).map
          (fun l => (splitOnChar '\t' l).headD [])) := by
  intro lines
  induction lines with
  | nil =>
    intro acc m hok
    simp only [parseSamFileAux, Except.ok.injEq] at hok
    simp [← hok]
  | cons line rest ih =>
    intro acc m hok
    simp only [parseSamFileAux] at hok
    by_cases hh : line.head? = some '@'
    · rw [if_pos hh] at hok
      rw [List.filter_cons_of_neg (by simp [hh])]
      exact ih acc m hok
    · rw [if_neg hh] at hok
      rw [List.filter_cons_of_pos (by simp [hh])]
      rcases hsp : splitOnChar '\t' line with _ | ⟨qn, _ | ⟨f2, _ | ⟨rn, restF⟩⟩⟩ <;>
        simp only [hsp] at hok
      · simp at hok
      · simp at hok
      · simp at hok
      · have hstep : ∃ v, parseSamFileAux reference rest (acc ++ [(qn, v)]) = .ok m := by
          by_cases href : reference = []
          · rw [if_pos href] at hok
            rcases hins : rdInsert acc qn rn with e | d2 <;> simp only [hins] at hok
            · simp at hok
            · obtain ⟨_, hd2⟩ := rdInsert_ok hins
              subst hd2
              exact ⟨rn, hok⟩
          · rw [if_neg href] at hok
            rcases hl : alookup reference rn with _ | v <;> rw [hl] at hok
            · simp at hok
            · rcases hins : rdInsert acc qn v with e | d2 <;> simp only [hins] at hok
              · simp at hok
              · obtain ⟨_, hd2⟩ := rdInsert_ok hins
                subst hd2
                exact ⟨v, hok⟩
        obtain ⟨v, hrec⟩ := hstep
        have hkeys := ih (acc ++ [(qn, v)]) m hrec
        simp only [List.map_append, List.map_cons, List.map_nil] at hkeys
        rw [hkeys]
        simp [hsp]

/-- Modelled from the spec: a concrete instance of the query-name
normalizer get_base_sequence_name (pbhla.utils, outside src) — the spec has
it strip pipeline-added decorations such as barcode and subread suffixes,
so it keeps the identifier up to the first slash-delimited suffix. -/
def exampleNormalize (s : Str) : Str := s.takeWhile (fun c => decide (c ≠ '/'))

/-- Claim C4 counterexample: the ReferenceDict m1 parsing path stores the
raw query name of the record as the key, which differs from the normalized
name produced by the (spec-modelled) query-name normalizer, refuting the
claim that every single-alignment resolution path keys by the normalized
query id. -/
theorem c4_normalized_keys_counterexample :
    parseBlasrFileAux [] ["movie/42/0_99 tgt".data] [] =
      .ok [("movie/42/0_99".data, "tgt".data)] ∧
    exampleNormalize "movie/42/0_99".data = "movie".data ∧
    ("movie/42/0_99".data : Str) ≠ "movie".data := by
  refine ⟨by decide, by decide, by decide⟩

/-- Claim C4 (amended): the standalone m1 resolver keys its map by the
normalized query name, but the ReferenceDict m1 and SAM parsing paths and
the standalone SAM resolver key by the raw query name (the first field of
the record), with no normalization applied. -/
theorem c4_map_keys :
    (∀ (normalize : Str → Str) (reference : RDict)
       (records : List BlasrM1Record) (m : RDict),
      createM1Reference normalize reference records = .ok m →
      m.map Prod.fst = records.map (fun r => normalize r.qname)) ∧
    (∀ (reference : RDict) (lines : List Str) (m : RDict),
      parseBlasrFileAux reference lines [] = .ok m →
      m.map Prod.fst = lines.map (fun l => (splitOnChar ' ' l).headD [])) ∧
    (∀ (reference : RDict) (lines : List Str) (m : RDict),
      parseSamFileAux reference lines [] = .ok m →
      m.map Prod.fst =
        (lines.filter (fun l => decide (l.head? ≠ some '@'))).map
          (fun l => (splitOnChar '\t' l).headD [])) ∧
    (∀ (normalize : Str → Str) (reference : RDict)
       (records : List SamRecord) (m : RDict),
      createSamReference normalize reference records = .ok m →
      m.map Prod.fst = records.map (fun r => r.qname)) := by
  refine ⟨?_, ?_, ?_, ?_⟩
  · intro normalize reference records m hok
    simpa using createM1Aux_keys normalize reference records [] m hok
  · intro reference lines m hok
    simpa using parseBlasrFileAux_keys reference lines [] m hok
  · intro reference lines m hok
    simpa using parseSamFileAux_keys reference lines [] m hok
  · intro normalize reference records m hok
    simpa using createSamAux_keys normalize reference records [] m hok

theorem c4_map_keys_witness :
    ([("q".data, "t".data)] : RDict).map Prod.fst =
      [(⟨"q/1".data, "t".data⟩ : BlasrM1Record)].map
        (fun r => exampleNormalize r.qname) ∧
    ([("movie/42/0_99".data, "tgt".data)] : RDict).map Prod.fst =
      ["movie/42/0_99 tgt".data].map (fun l => (splitOnChar ' ' l).headD []) := by
  constructor
  · exact c4_map_keys.1 exampleNormalize [] [⟨"q/1".data, "t".data⟩]
      [("q".data, "t".data)] (by decide)
  · exact c4_map_keys.2.1 [] ["movie/42/0_99 tgt".data]
      [("movie/42/0_99".data, "tgt".data)] (by decide)

def m5DiffCount (r : BlasrM5Record) : Nat := r.nmis + r.nins + r.ndel

def bestOf : Option (Str × Nat) → (Str × Nat) → Option (Str × Nat)
  | none, x => some x
  | some (t, d), (t2, d2) => if d > d2 then some (t2, d2) else some (t, d)

def m5CurAt (results : RDict) (diffs : List (Str × Nat)) (q : Str) :
    Option (Str × Nat) :=
  match alookup results q, alookup diffs q with
  | some t, some d => some (t, d)
  | _, _ => none

theorem m5CurAt_none {results : RDict} {diffs : List (Str × Nat)} {q : Str}
    (hs : ∀ k, (alookup results k).isSome = (alookup diffs k).isSome)
    (hd : alookup diffs q = none) : m5CurAt results diffs q = none := by
  have hr : alookup results q = none := by
    have := hs q
    rw [hd] at this
    simp only [Option.isSome_none] at this
    rcases ho : alookup results q with _ | x
    · rfl
    · rw [ho] at this; simp at this
  simp [m5CurAt, hr, hd]

theorem m5CurAt_some {results : RDict} {diffs : List (Str × Nat)} {q : Str} {d : Nat}
    (hs : ∀ k, (alookup results k).isSome = (alookup diffs k).isSome)
    (hd : alookup diffs q = some d) :
    ∃ t0, alookup results q = some t0 ∧ m5CurAt results diffs q = some (t0, d) := by
  have hiso : (alookup results q).isSome = true := by
    rw [hs q, hd]; rfl
  rcases ho : alookup results q with _ | t0
  · rw [ho] at hiso; simp at hiso
  · exact ⟨t0, rfl, by simp [m5CurAt, ho, hd]⟩

theorem hs_aset {results : RDict} {diffs : List (Str × Nat)}
    (hs : ∀ k, (alookup results k).isSome = (alookup diffs k).isSome)
    (k : Str) (t : Str) (dc : Nat) :
    ∀ k2, (alookup (aset results k t) k2).isSome =
      (alookup (aset diffs k dc) k2).isSome := by
  intro k2
  rw [alookup_aset, alookup_aset]
  by_cases he : k = k2
  · simp [he]
  · simp only [he, if_false]
    exact hs k2

theorem m5CurAt_aset_self (results : RDict) (diffs : List (Str × Nat))
    (k : Str) (t : Str) (dc : Nat) :
    m5CurAt (aset results k t) (aset diffs k dc) k = some (t, dc) := by
  simp [m5CurAt, alookup_aset]

theorem m5CurAt_aset_ne (results : RDict) (diffs : List (Str × Nat))
    {k q : Str} (t : Str) (dc : Nat) (h : ¬ k = q) :
    m5CurAt (aset results k t) (aset diffs k dc) q = m5CurAt results diffs q := by
  simp [m5CurAt, alookup_aset, h]

theorem createM5Aux_lookup (normalize : Str → Str) :
    ∀ (rs : List BlasrM5Record) (results : RDict) (diffs : List (Str × Nat)) (q : Str),
    (∀ k, (alookup results k).isSome = (alookup diffs k).isSome) →
    alookup (createM5Aux normalize rs results diffs) q =
      (((rs.filter (fun r => decide (normalize r.qname = q))).map
          (fun r => (normalize r.tname, m5DiffCount r))).foldl bestOf
        (m5CurAt results diffs q)).map Prod.fst := by
  intro rs
  induction rs with
  | nil =>
    intro results diffs q hs
    simp only [createM5Aux, List.filter_nil, List.map_nil, List.foldl_nil]
    rcases hd : alookup diffs q with _ | d
    · rw [m5CurAt_none hs hd]
      have hr : alookup results q = none := by
        have := hs q
        rw [hd] at this
        simp only [Option.isSome_none] at this
        rcases ho : alookup results q with _ | x
        · rfl
        · rw [ho] at this; simp at this
      simp [hr]
    · obtain ⟨t0, hr, hc⟩ := m5CurAt_some hs hd
      rw [hc, hr]
      rfl
  | cons r rest ih =>
    intro results diffs q hs
    simp only [createM5Aux]
    rcases hd : alookup diffs (normalize r.qname) with _ | d <;> simp only [hd]
    · rw [ih (aset results (normalize r.qname) (normalize r.tname))
        (aset diffs (normalize r.qname) (r.nmis + r.nins + r.ndel)) q
        (hs_aset hs _ _ _)]
      by_cases hq : normalize r.qname = q
      · subst hq
        rw [List.filter_cons_of_pos (by simp), List.map_cons, List.foldl_cons]
        rw [m5CurAt_none hs hd, m5CurAt_aset_self]
        rfl
      · rw [List.filter_cons_of_neg (by simp [hq]), m5CurAt_aset_ne _ _ _ _ hq]
    · by_cases hgt : d > r.nmis + r.nins + r.ndel
      · rw [if_pos hgt]
        rw [ih (aset results (normalize r.qname) (normalize r.tname))
          (aset diffs (normalize r.qname) (r.nmis + r.nins + r.ndel)) q
          (hs_aset hs _ _ _)]
        by_cases hq : normalize r.qname = q
        · subst hq
          rw [List.filter_cons_of_pos (by simp), List.map_cons, List.foldl_cons]
          obtain ⟨t0, hr, hc⟩ := m5CurAt_some hs hd
          rw [hc, m5CurAt_aset_self]
          have hbo : bestOf (some (t0, d)) (normalize r.tname, m5DiffCount r) =
              some (normalize r.tname, m5DiffCount r) := by
            simp only [bestOf]
            rw [if_pos (by simp only [m5DiffCount]; omega)]
          rw [hbo]
          rfl
        · rw [List.filter_cons_of_neg (by simp [hq]), m5CurAt_aset_ne _ _ _ _ hq]
      · rw [if_neg hgt]
        rw [ih results diffs q hs]
        by_cases hq : normalize r.qname = q
        · subst hq
          rw [List.filter_cons_of_pos (by simp), List.map_cons, List.foldl_cons]
          obtain ⟨t0, hr, hc⟩ := m5CurAt_some hs hd
          rw [hc]
          have hbo : bestOf (some (t0, d)) (normalize r.tname, m5DiffCount r) =
              some (t0, d) := by
            simp only [bestOf]
            rw [if_neg (by simp only [m5DiffCount]; omega)]
          rw [hbo]
        · rw [List.filter_cons_of_neg (by simp [hq])]

def firstMinP : List (Str × Nat) → Option (Str × Nat)
  | [] => none
  | x :: xs =>
    match firstMinP xs with
    | none => some x
    | some y => if x.2 ≤ y.2 then some x else some y

def minMerge (o : Option (Str × Nat)) (a : Str × Nat) : Option (Str × Nat) :=
  match o with
  | none => some a
  | some y => if y.2 < a.2 then some y else some a

theorem foldl_bestOf_some : ∀ (xs : List (Str × Nat)) (a : Str × Nat),
    xs.foldl bestOf (some a) = minMerge (firstMinP xs) a := by
  intro xs
  induction xs with
  | nil => intro a; rfl
  | cons x xs ih =>
    intro a
    rcases a with ⟨t, d⟩
    rcases x with ⟨t2, d2⟩
    have hb : bestOf (some (t, d)) (t2, d2) =
        if d > d2 then some (t2, d2) else some (t, d) := rfl
    simp only [List.foldl_cons, hb]
    rcases hfm : firstMinP xs with _ | y
    · have hfc : firstMinP ((t2, d2) :: xs) = some (t2, d2) := by
        simp only [firstMinP, hfm]
      rw [hfc]
      by_cases h1 : d > d2
      · rw [if_pos h1, ih (t2, d2), hfm]
        simp only [minMerge]
        rw [if_pos (show d2 < d by omega)]
      · rw [if_neg h1, ih (t, d), hfm]
        simp only [minMerge]
        rw [if_neg (show ¬ d2 < d by omega)]
    · have hfc : firstMinP ((t2, d2) :: xs) =
          if d2 ≤ y.2 then some (t2, d2) else some y := by
        simp only [firstMinP, hfm]
      by_cases h2 : d2 ≤ y.2
      · rw [hfc, if_pos h2]
        by_cases h1 : d > d2
        · rw [if_pos h1, ih (t2, d2), hfm]
          simp only [minMerge]
          rw [if_neg (show ¬ y.2 < d2 by omega), if_pos (show d2 < d by omega)]
        · rw [if_neg h1, ih (t, d), hfm]
          simp only [minMerge]
          rw [if_neg (show ¬ y.2 < d by omega), if_neg (show ¬ d2 < d by omega)]
      · rw [hfc, if_neg h2]
        by_cases h1 : d > d2
        · rw [if_pos h1, ih (t2, d2), hfm]
          simp only [minMerge]
          rw [if_pos (show y.2 < d2 by omega), if_pos (show y.2 < d by omega)]
        · rw [if_neg h1, ih (t, d), hfm]

theorem foldl_bestOf_none (xs : List (Str × Nat)) :
    xs.foldl bestOf none = firstMinP xs := by
  cases xs with
  | nil => rfl
  | cons x xs =>
    have hb : bestOf none x = some x := rfl
    simp only [List.foldl_cons, hb, foldl_bestOf_some]
    rcases x with ⟨t2, d2⟩
    rcases hfm : firstMinP xs with _ | y
    · have hfc : firstMinP ((t2, d2) :: xs) = some (t2, d2) := by
        simp only [firstMinP, hfm]
      rw [hfc]
      rfl
    · have hfc : firstMinP ((t2, d2) :: xs) =
          if d2 ≤ y.2 then some (t2, d2) else some y := by
        simp only [firstMinP, hfm]
      rw [hfc]
      simp only [minMerge]
      by_cases h2 : d2 ≤ y.2
      · rw [if_pos h2, if_neg (show ¬ y.2 < d2 by omega)]
      · rw [if_neg h2, if_pos (show y.2 < d2 by omega)]

theorem firstMinP_spec : ∀ (l : List (Str × Nat)) (y : Str × Nat),
    firstMinP l = some y →
    ∃ l1 l2, l = l1 ++ y :: l2 ∧ (∀ x ∈ l1, y.2 < x.2) ∧ (∀ x ∈ l2, y.2 ≤ x.2) := by
  intro l
  induction l with
  | nil => intro y hy; simp [firstMinP] at hy
  | cons x xs ih =>
    intro y hy
    simp only [firstMinP] at hy
    rcases hfm : firstMinP xs with _ | z <;> simp only [hfm] at hy
    · simp only [Option.some.injEq] at hy
      subst hy
      have hnil : xs = [] := by
        cases xs with
        | nil => rfl
        | cons a as =>
          exfalso
          simp only [firstMinP] at hfm
          rcases h2 : firstMinP as with _ | w <;> simp only [h2] at hfm
          · simp at hfm
          · by_cases h3 : a.2 ≤ w.2 <;> simp [h3] at hfm
      subst hnil
      exact ⟨[], [], rfl, by simp, by simp⟩
    · obtain ⟨l1, l2, heq, hl1, hl2⟩ := ih z hfm
      by_cases h3 : x.2 ≤ z.2
      · rw [if_pos h3] at hy
        simp only [Option.some.injEq] at hy
        subst hy
        refine ⟨[], xs, rfl, by simp, ?_⟩
        intro w hw
        rw [heq] at hw
        rcases List.mem_append.mp hw with h4 | h4
        · have := hl1 w h4; omega
        · rcases List.mem_cons.mp h4 with h5 | h5
          · subst h5; omega
          · have := hl2 w h5; omega
      · rw [if_neg h3] at hy
        simp only [Option.some.injEq] at hy
        subst hy
        refine ⟨x :: l1, l2, by rw [heq]; simp, ?_, hl2⟩
        intro w hw
        rcases List.mem_cons.mp hw with h4 | h4
        · subst h4; omega
        · exact hl1 w h4

/-- Claim C2: in the m5 reduction mode the resolver's entry for every query
equals the (normalized) target of the record with the minimal edit score
(mismatches plus insertions plus deletions) among the records of that
query, with the first-seen record kept on ties and no duplicate error
possible (the resolver is a total function); the first-min witness
decomposes the query's score stream into a strictly-greater prefix and a
greater-or-equal suffix around the selected record, and on the score
stream 5, 3, 3, 7 the resolver selects the first record of score 3. -/
theorem c2_m5_edit_score_tiebreak :
    (∀ (normalize : Str → Str) (records : List BlasrM5Record) (q : Str),
      alookup (createM5Reference normalize records) q =
        (firstMinP ((records.filter (fun r => decide (normalize r.qname = q))).map
          (fun r => (normalize r.tname, m5DiffCount r)))).map Prod.fst) ∧
    (∀ (l : List (Str × Nat)) (y : Str × Nat), firstMinP l = some y →
      ∃ l1 l2, l = l1 ++ y :: l2 ∧ (∀ x ∈ l1, y.2 < x.2) ∧
        (∀ x ∈ l2, y.2 ≤ x.2)) ∧
    (alookup (createM5Reference (fun s => s)
        [⟨"q".data, "t1".data, 5, 0, 0⟩, ⟨"q".data, "t2".data, 3, 0, 0⟩,
         ⟨"q".data, "t3".data, 3, 0, 0⟩, ⟨"q".data, "t4".data, 7, 0, 0⟩])
      "q".data = some "t2".data) := by
  refine ⟨?_, firstMinP_spec, ?_⟩
  · intro normalize records q
    rw [createM5Reference,
      createM5Aux_lookup normalize records [] [] q (fun k => rfl)]
    rw [show m5CurAt [] [] q = none from rfl]
    rw [foldl_bestOf_none]
  · decide

theorem c2_m5_edit_score_tiebreak_witness :
    (alookup (createM5Reference (fun s => s)
        [⟨"x".data, "u1".data, 2, 0, 0⟩, ⟨"x".data, "u2".data, 1, 0, 0⟩])
      "x".data =
      (firstMinP ((([⟨"x".data, "u1".data, 2, 0, 0⟩,
          ⟨"x".data, "u2".data, 1, 0, 0⟩] : List BlasrM5Record).filter
            (fun r => decide ((fun s => s) r.qname = "x".data))).map
          (fun r => ((fun s => s) r.tname, m5DiffCount r)))).map Prod.fst) ∧
    (∃ l1 l2, ([("a".data, 2), ("b".data, 1)] : List (Str × Nat)) =
      l1 ++ ("b".data, 1) :: l2 ∧
      (∀ x ∈ l1, (("b".data, 1) : Str × Nat).2 < x.2) ∧
      (∀ x ∈ l2, (("b".data, 1) : Str × Nat).2 ≤ x.2)) := by
  constructor
  · exact c2_m5_edit_score_tiebreak.1 (fun s => s)
      [⟨"x".data, "u1".data, 2, 0, 0⟩, ⟨"x".data, "u2".data, 1, 0, 0⟩] "x".data
  · exact c2_m5_edit_score_tiebreak.2.1 [("a".data, 2), ("b".data, 1)]
      ("b".data, 1) (by decide)
